import Mathlib

/-!
Verification of the control algorithms of an RPG-Maker game-text translator:
the chunk partitioner, the translation worker, the orchestration engine's
event aggregation, and the tournament-style batch-size auto-tuner.

Shallow embedding of:
  - src/translator/translation_engine.py
      (TranslationWorker.run, TranslationEngine.translate_batch /
       polish_batch / _on_item_processed / _on_entry_done /
       _on_worker_finished / _split_chunks)
  - src/translator/auto_tuner.py
      (AutoTunerWorker.run / _run_impl / _timed_translate /
       _translate_and_emit)

Modelling conventions:
  - Python lists become Lean lists; Python slices items[a:b] become
    (items.drop a).take (b - a).
  - The translation client is a black box (spec section 6); its responses,
    wall-clock measurements and the cross-thread cancellation flag are
    supplied by oracles (explicit function arguments), one value per
    observation the code makes.
  - Floating-point throughput values are modelled as rationals; the claims
    under verification only concern the comparison/averaging logic, not
    float rounding.
  - Qt signal emissions are recorded in explicit trace fields of the
    returned state.
-/

/-! ## Data model

The entry type (TranslationEntry) lives in src/translator/project_model.py,
which is not part of the provided sources.  Modelled from the spec:
section 3 WorkItem gives identity, source text, optional context, optional
field tag, mutable translation text, and a status string. -/

structure TEntry where
  id : String
  original : String
  context : String
  fieldTag : String
  translation : String
  status : String
deriving DecidableEq, Repr

/-- Python's str.strip(): remove leading and trailing whitespace
(kernel-computable rendering of String.trim). -/
def pyStrip (s : String) : String :=
  String.mk (((s.data.dropWhile Char.isWhitespace).reverse.dropWhile
    Char.isWhitespace).reverse)

/-- Python's .replace("\n", " "): the single-character replacement done on
progress previews, rendered as a character map. -/
def newlineToSpace (s : String) : String :=
  String.mk (s.data.map (fun c => if c = '\n' then ' ' else c))

/-! ## Partitioner: TranslationEngine._split_chunks (translation_engine.py 213-225) -/

/-- Size of the i-th chunk: `size = k + (1 if i < remainder else 0)`
(translation_engine.py line 222). -/
def chunkSize (k r i : Nat) : Nat := k + (if i < r then 1 else 0)

/-- The `for i in range(n)` loop of `_split_chunks` (lines 221-224): the
loop indices still to be processed arrive as a list, `start` is the running
slice start. -/
def chunksGo {α : Type} (items : List α) (k r : Nat) : List Nat → Nat → List (List α)
  | [], _ => []
  | i :: rest, start =>
      (items.drop start).take (chunkSize k r i)
        :: chunksGo items k r rest (start + chunkSize k r i)

/-- `TranslationEngine._split_chunks(items, n)` (lines 213-225): if n <= 1
return `[items]`; otherwise `k, remainder = divmod(len(items), n)` and n
slices are produced by the loop. -/
def splitChunks {α : Type} (items : List α) (n : Nat) : List (List α) :=
  if n ≤ 1 then [items]
  else chunksGo items (items.length / n) (items.length % n) (List.range n) 0

/-- The engine's invocation of the partitioner: `n = min(self.num_workers,
len(to_translate))` then `_split_chunks(to_translate, n)`
(translation_engine.py lines 115-116 and 156-157). -/
def engineSplit {α : Type} (items : List α) (numWorkers : Nat) : List (List α) :=
  splitChunks items (min numWorkers items.length)

/-! ## Worker: TranslationWorker.run (translation_engine.py 29-67)

The per-item loop reads the cross-thread `_cancelled` flag once per
iteration and performs at most one client call per item.  The flag reads
and the client-call outcomes are oracles indexed by the iteration. -/

/-- Decision made for one entry before any client call
(translation_engine.py lines 35-48): skip with a progress preview
(possibly mutating the entry, line 41), or proceed to the client call. -/
inductive StepAction where
  | skipItem (preview : String) (entryOut : TEntry)
  | callClient
deriving DecidableEq, Repr

/-- The mode-dependent skip checks of the worker loop (lines 35-48).
In translate mode an entry already translated/reviewed/skipped is skipped,
and an entry with blank source text is marked skipped as a side effect;
in any other mode (polish) an entry with an empty or whitespace-only
translation is skipped. -/
def stepAction (mode : String) (e : TEntry) : StepAction :=
  if mode == "translate" then
    if e.status == "translated" || e.status == "reviewed" || e.status == "skipped" then
      .skipItem "(skipped)" e
    else if pyStrip e.original == "" then
      .skipItem "(empty)" { e with status := "skipped" }
    else .callClient
  else
    if e.translation == "" || pyStrip e.translation == "" then
      .skipItem "(skipped)" e
    else .callClient

/-- Everything a worker run emits, plus the entry list as left behind
(statuses possibly mutated).  `finishedCount` counts `finished.emit()`
calls (line 67). -/
structure WorkerTrace where
  entriesOut : List TEntry
  processed : List String
  entryDone : List (String × String)
  errors : List (String × String)
  finishedCount : Nat
deriving DecidableEq, Repr

/-- Advance an oracle past its first observation. -/
def shiftO {β : Type} (f : Nat → β) : Nat → β := fun i => f (i + 1)

/-- The preview emitted before a client call (lines 50-52):
`(entry.translation if mode == "polish" else entry.original)[:50]` with
newlines replaced by spaces. -/
def callPreview (mode : String) (e : TEntry) : String :=
  newlineToSpace ((if mode == "polish" then e.translation else e.original).take 50)

/-- `TranslationWorker.run` (lines 29-67).  `cancel i` is the value of the
`_cancelled` flag read at the top of iteration i; `outcome i` is the
client call's result at iteration i: `.ok result` for a successful
translate/polish call, `.error msg` for a caught client-side exception
(ConnectionError, requests.RequestException, ValueError, OSError). -/
def workerRun (mode : String) (cancel : Nat → Bool) (outcome : Nat → Except String String) :
    List TEntry → WorkerTrace
  | [] => ⟨[], [], [], [], 1⟩
  | e :: rest =>
    if cancel 0 then ⟨e :: rest, [], [], [], 1⟩
    else
      match stepAction mode e with
      | .skipItem preview eOut =>
          let t := workerRun mode (shiftO cancel) (shiftO outcome) rest
          { t with entriesOut := eOut :: t.entriesOut, processed := preview :: t.processed }
      | .callClient =>
          let t := workerRun mode (shiftO cancel) (shiftO outcome) rest
          match outcome 0 with
          | .ok result =>
              { t with entriesOut := e :: t.entriesOut,
                       processed := callPreview mode e :: t.processed,
                       entryDone := (e.id, result) :: t.entryDone }
          | .error msg =>
              { t with entriesOut := e :: t.entriesOut,
                       processed := callPreview mode e :: t.processed,
                       errors := (e.id, msg) :: t.errors }

/-! ## Engine run startup: translate_batch / polish_batch
(translation_engine.py 96-134 and 136-174) -/

/-- The eligibility filter of `translate_batch` (line 102). -/
def translateEligible (e : TEntry) : Bool := e.status == "untranslated"

/-- The eligibility filter of `polish_batch` (lines 142-144). -/
def polishEligible (e : TEntry) : Bool :=
  (e.status == "translated" || e.status == "reviewed")
    && e.translation != "" && pyStrip e.translation != ""

/-- What a call to translate_batch / polish_batch observably does before
any worker thread runs: terminal `finished` emissions and the chunk
assignments handed to the workers it starts. -/
structure BatchStart where
  finishedEmits : Nat
  chunks : List (List TEntry)
  total : Nat
deriving DecidableEq, Repr

/-- `TranslationEngine.translate_batch` (lines 96-134): return immediately
if a run is active; emit `finished` and return if nothing is eligible;
otherwise split into `min(num_workers, len(to_translate))` chunks and
start one worker per chunk. -/
def translateBatchStart (isRunning : Bool) (numWorkers : Nat) (entries : List TEntry) :
    BatchStart :=
  if isRunning then ⟨0, [], 0⟩
  else
    let toTranslate := entries.filter translateEligible
    if toTranslate.isEmpty then ⟨1, [], 0⟩
    else ⟨0, engineSplit toTranslate numWorkers, toTranslate.length⟩

/-- `TranslationEngine.polish_batch` (lines 136-174), same shape with the
polish eligibility filter. -/
def polishBatchStart (isRunning : Bool) (numWorkers : Nat) (entries : List TEntry) :
    BatchStart :=
  if isRunning then ⟨0, [], 0⟩
  else
    let toPolish := entries.filter polishEligible
    if toPolish.isEmpty then ⟨1, [], 0⟩
    else ⟨0, engineSplit toPolish numWorkers, toPolish.length⟩

/-! ## Engine event aggregation (translation_engine.py 189-211)

Worker signals are delivered to the engine's handlers one at a time in the
Qt event-dispatch thread; a run is the fold of the handler over the
arriving event sequence. -/

/-- `CHECKPOINT_INTERVAL = 25` (line 79). -/
def CHECKPOINT_INTERVAL : Nat := 25

/-- One signal arriving at the engine from a worker. -/
inductive EngineEvent where
  | itemProcessed (text : String)
  | entryDone (entryId translation : String)
  | errorEvt (entryId msg : String)
  | workerFinished
deriving DecidableEq, Repr

/-- Engine aggregation state plus emission traces. -/
structure EngineAgg where
  total : Nat
  progressCount : Nat
  translateCount : Nat
  finishedWorkers : Nat
  workerCount : Nat
  progressEmits : Nat
  entryDoneEmits : List (String × String)
  checkpointEmits : Nat
  finishedEmits : Nat
  errorEmits : List (String × String)
deriving DecidableEq, Repr

/-- The engine's slots `_on_item_processed` (189-192), `_on_entry_done`
(194-199), error relay (126/167), and `_on_worker_finished` (201-211).
`_on_worker_finished` clears the worker list after the terminal emission,
modelled by `workerCount := 0`. -/
def engineDispatch (st : EngineAgg) : EngineEvent → EngineAgg
  | .itemProcessed _ =>
      { st with progressCount := st.progressCount + 1, progressEmits := st.progressEmits + 1 }
  | .entryDone entryId translation =>
      let st := { st with entryDoneEmits := st.entryDoneEmits ++ [(entryId, translation)],
                          translateCount := st.translateCount + 1 }
      if st.translateCount % CHECKPOINT_INTERVAL = 0 then
        { st with checkpointEmits := st.checkpointEmits + 1 }
      else st
  | .errorEvt entryId msg =>
      { st with errorEmits := st.errorEmits ++ [(entryId, msg)] }
  | .workerFinished =>
      let st := { st with finishedWorkers := st.finishedWorkers + 1 }
      if st.workerCount ≤ st.finishedWorkers then
        { st with finishedEmits := st.finishedEmits + 1, workerCount := 0 }
      else st

/-- Number of entry-done events in an event sequence. -/
def countEntryDone (evs : List EngineEvent) : Nat :=
  (evs.filter (fun ev => match ev with | .entryDone _ _ => true | _ => false)).length

/-! ## Auto-tuner: AutoTunerWorker (auto_tuner.py)

The tuner is strictly sequential; every interaction with the outside
world (the `_cancelled` flag, the client's batch results, the wall
clock) is an oracle observation.  Throughputs (floats in the source) are
modelled as rationals.  Batch-result dicts are modelled as association
lists whose key `j` stands for the payload key string built as
"Line" followed by the numeral j (auto_tuner.py lines 255-259); a
Python dict never holds a duplicate key, which callers state as a
Nodup hypothesis. -/

/-- `SURVEY_STEPS = [5, 10, 15, 20, 25, 30]` (auto_tuner.py line 39). -/
def SURVEY_STEPS : List Nat := [5, 10, 15, 20, 25, 30]

/-- `REPS = 3` (line 40). -/
def REPS : Nat := 3

/-- `WARMUP_SIZE = 2` (line 41). -/
def WARMUP_SIZE : Nat := 2

/-- `MIN_ENTRIES = 107` (line 42). -/
def MIN_ENTRIES : Nat := 107

/-- Oracles for one calibration run.  `cancel t` is the value of the t-th
read of `_cancelled`; `batchRaises b` says whether the b-th timed batch's
`client.translate_batch` call raises; `results b` is its returned dict as
an association list (key j ↦ translation) when it does not raise;
`elapsed b` is the wall-clock time measured around the b-th timed batch;
`warmupRaises` / `warmupResults` play the same role for the untimed
warmup call; `inject = some msg` makes an unexpected exception escape
`_run_impl` (before any terminal emission), exercising the catch-all in
`run` (lines 65-72). -/
structure TunerOracle where
  isCloud : Bool
  cancel : Nat → Bool
  warmupRaises : Bool
  warmupResults : List (Nat × String)
  batchRaises : Nat → Bool
  results : Nat → List (Nat × String)
  elapsed : Nat → ℚ
  inject : Option String

/-- Mutable state of `AutoTunerWorker._run_impl` plus emission traces.
`taken` records each slice taken from the eligible list as the pair
(offset at the time of the take, requested batch size), warmup included.
`batchIdx` counts timed batches (oracle index); `checkIdx` counts reads
of the `_cancelled` flag. -/
structure TunerState where
  offset : Nat := 0
  consumed : Nat := 0
  batchIdx : Nat := 0
  checkIdx : Nat := 0
  taken : List (Nat × Nat) := []
  entryDones : Nat := 0
  processedEmits : Nat := 0
  stepDones : List (Nat × ℚ × ℚ) := []
  progressEmits : Nat := 0
  errorEmits : List String := []
  finishedEmits : List Nat := []

/-- `key_to_entry.get(key)` (lines 259, 265): key j stands for the string
"Line"+j, built only for j = 1..len(entries), so j maps to entries[j-1]. -/
def keyToEntry (entries : List TEntry) (k : Nat) : Option TEntry :=
  if k = 0 then none else entries[k - 1]?

/-- The success count of `_translate_and_emit` (lines 263-271): one per
result pair whose key maps to a payload entry and whose translation is
truthy (non-empty). -/
def countSuccess (entries : List TEntry) (results : List (Nat × String)) : Nat :=
  (results.filter (fun kv => (keyToEntry entries kv.1).isSome && kv.2 != "")).length

/-- `_translate_and_emit` after a successful client call (lines 263-273):
emits item_processed and entry_done per success and adds the success
count to `_consumed`.  Returns the success count. -/
def translateAndEmit (entries : List TEntry) (results : List (Nat × String))
    (st : TunerState) : Nat × TunerState :=
  let succ := countSuccess entries results
  (succ, { st with consumed := st.consumed + succ,
                   entryDones := st.entryDones + succ,
                   processedEmits := st.processedEmits + succ })

/-- One read of the `_cancelled` flag. -/
def readCancel (o : TunerOracle) (st : TunerState) : Bool × TunerState :=
  (o.cancel st.checkIdx, { st with checkIdx := st.checkIdx + 1 })

/-- Taking `available[offset:offset+size]` and advancing `offset`
(e.g. lines 113-114). -/
def takeBatch (avail : List TEntry) (size : Nat) (st : TunerState) :
    List TEntry × TunerState :=
  ((avail.drop st.offset).take size,
   { st with offset := st.offset + size,
             taken := st.taken ++ [(st.offset, size)] })

/-- `_timed_translate` (lines 237-248): on an exception from the client
call, emit an error and report (0, 0); otherwise compute
eps = success/elapsed if elapsed > 0 and success > 0 else 0. -/
def timedTranslate (o : TunerOracle) (batch : List TEntry) (size : Nat)
    (st : TunerState) : (ℚ × ℚ) × TunerState :=
  let b := st.batchIdx
  let st := { st with batchIdx := b + 1 }
  if o.batchRaises b then
    ((0, 0), { st with errorEmits := st.errorEmits ++ [toString size] })
  else
    let te := translateAndEmit batch (o.results b) st
    let el := o.elapsed b
    let eps : ℚ := if 0 < el ∧ 0 < te.1 then (te.1 : ℚ) / el else 0
    ((eps, el), te.2)

/-- The body shared by every measured batch of Rounds 1-3 (lines 113-124,
153-163, 203-213): take the slice, emit the status message, time the
translation, and emit step_done.  Returns the measured eps. -/
def surveyBatch (o : TunerOracle) (avail : List TEntry) (size : Nat)
    (st : TunerState) : ℚ × TunerState :=
  let tb := takeBatch avail size st
  let st1 := { tb.2 with progressEmits := tb.2.progressEmits + 1 }
  let tt := timedTranslate o tb.1 size st1
  let st2 := { tt.2 with stepDones := tt.2.stepDones ++ [(size, tt.1.1, tt.1.2)] }
  (tt.1.1, st2)

/-- The warmup step (lines 91-101): guarded by one flag read and
`offset + WARMUP_SIZE <= len(available)`; a raising batch call aborts the
run (first component true). -/
def warmupPhase (o : TunerOracle) (avail : List TEntry) (st : TunerState) :
    Bool × TunerState :=
  let rc := readCancel o st
  if rc.1 = false ∧ rc.2.offset + WARMUP_SIZE ≤ avail.length then
    let st1 := { rc.2 with progressEmits := rc.2.progressEmits + 1 }
    let tb := takeBatch avail WARMUP_SIZE st1
    if o.warmupRaises then (true, tb.2)
    else (false, (translateAndEmit tb.1 o.warmupResults tb.2).2)
  else (false, rc.2)

/-- The Round-1 survey loop (lines 106-124): for each step size, stop on
cancellation or when the remaining entries cannot cover it; otherwise run
the measured batch and record (size, eps). -/
def r1Survey (o : TunerOracle) (avail : List TEntry) :
    List Nat → TunerState → List (Nat × ℚ) → TunerState × List (Nat × ℚ)
  | [], st, acc => (st, acc)
  | size :: rest, st, acc =>
    let rc := readCancel o st
    if rc.1 then (rc.2, acc)
    else if avail.length < rc.2.offset + size then (rc.2, acc)
    else
      let sb := surveyBatch o avail size rc.2
      r1Survey o avail rest sb.2 (acc ++ [(size, sb.1)])

/-- The repetition loop shared by Rounds 2 and 3 (lines 146-163 and
196-213): up to REPS batches of one size, stopping on cancellation or
when entries run out. -/
def repLoop (o : TunerOracle) (avail : List TEntry) (size : Nat) :
    Nat → TunerState → List ℚ → TunerState × List ℚ
  | 0, st, acc => (st, acc)
  | fuel + 1, st, acc =>
    let rc := readCancel o st
    if rc.1 then (rc.2, acc)
    else if avail.length < rc.2.offset + size then (rc.2, acc)
    else
      let sb := surveyBatch o avail size rc.2
      repLoop o avail size fuel sb.2 (acc ++ [sb.1])

/-- The outer per-size loop of Rounds 2 and 3 (lines 141-163 and
191-213): one flag read per size; the raw dict gains the key (with the
collected eps list, possibly empty) only when the size iteration starts. -/
def roundLoop (o : TunerOracle) (avail : List TEntry) :
    List Nat → TunerState → List (Nat × List ℚ) → TunerState × List (Nat × List ℚ)
  | [], st, raw => (st, raw)
  | size :: rest, st, raw =>
    let rc := readCancel o st
    if rc.1 then (rc.2, raw)
    else
      let rl := repLoop o avail size REPS rc.2 []
      roundLoop o avail rest rl.1 (raw ++ [(size, rl.2)])

/-- `dict.get(size, [])` over an association list (lines 218). -/
def lookupD (m : List (Nat × List ℚ)) (k : Nat) : List ℚ :=
  match m.find? (fun p => p.1 == k) with
  | some p => p.2
  | none => []

/-- Mean of a sample list, `sum(l) / len(l)` (lines 169, 220). -/
def avgOf (l : List ℚ) : ℚ := l.sum / (l.length : ℚ)

/-- The Round-2 averaging loop (lines 166-171): keep a (size, average)
pair for every size whose sample list is non-empty, in dict order. -/
def averages (raw : List (Nat × List ℚ)) : List (Nat × ℚ) :=
  raw.filterMap (fun p => if p.2.isEmpty then none else some (p.1, avgOf p.2))

/-- Stable descending sort on the second component: the behavior of
Python's `sorted(results, key=lambda r: r[1], reverse=True)` (lines 131,
181) — descending by value, original order preserved among equals;
realised as a stable insertion sort. -/
def insertDesc (x : Nat × ℚ) : List (Nat × ℚ) → List (Nat × ℚ)
  | [] => [x]
  | y :: ys => if y.2 < x.2 then x :: y :: ys else y :: insertDesc x ys

/-- See `insertDesc`. -/
def sortByEpsDesc (l : List (Nat × ℚ)) : List (Nat × ℚ) :=
  l.foldl (fun acc x => insertDesc x acc) []

/-- The winner-combination loop (lines 216-222): for each finalist size,
pool the Round-2 and Round-3 samples; keep an average only when the pool
is non-empty. -/
def buildCombined (finalists : List Nat) (r2raw r3raw : List (Nat × List ℚ)) :
    List (Nat × ℚ) :=
  finalists.filterMap (fun size =>
    let allEps := lookupD r2raw size ++ lookupD r3raw size
    if allEps.isEmpty then none else some (size, avgOf allEps))

/-- One comparison step of Python's max: replace the current best only
when the new element's key (value, size) is strictly lexicographically
greater. -/
def pyMaxStep (best q : Nat × ℚ) : Nat × ℚ :=
  if best.2 < q.2 ∨ (best.2 = q.2 ∧ best.1 < q.1) then q else best

/-- `max(d, key=lambda s: (d[s], s))` (lines 226, 228): Python's max
keeps the first element and replaces it only on a strictly
lexicographically greater key, so the result maximises (value, size). -/
def pyMaxKey (l : List (Nat × ℚ)) : Nat :=
  match l with
  | [] => 0
  | p :: ps => (ps.foldl pyMaxStep p).1

/-- The eligible-entry filter of `_run_impl` (lines 81-82): untranslated
entries with truthy, non-whitespace source text, in original order. -/
def tunerEligible (entries : List TEntry) : List TEntry :=
  entries.filter (fun e =>
    e.status == "untranslated" && e.original != "" && pyStrip e.original != "")

/-- One progress status emission between phases (lines 134-136, 184-186). -/
def bumpProgress (st : TunerState) : TunerState :=
  { st with progressEmits := st.progressEmits + 1 }

/-- `AutoTunerWorker._run_impl` (lines 74-235). -/
def runImpl (o : TunerOracle) (entries : List TEntry) : TunerState :=
  if o.isCloud then { finishedEmits := [30] }
  else
    let avail := tunerEligible entries
    if avail.length < MIN_ENTRIES then { finishedEmits := [1] }
    else
      let wp := warmupPhase o avail {}
      if wp.1 then
        { wp.2 with finishedEmits := wp.2.finishedEmits ++ [SURVEY_STEPS.headD 0] }
      else
        let s1 := r1Survey o avail SURVEY_STEPS wp.2 []
        if s1.2.isEmpty then
          { s1.1 with finishedEmits := s1.1.finishedEmits ++ [SURVEY_STEPS.headD 0] }
        else
          let top3Sizes := ((sortByEpsDesc s1.2).take 3).map Prod.fst
          let rd2 := roundLoop o avail top3Sizes (bumpProgress s1.1) []
          let r2avg := averages rd2.2
          if r2avg.isEmpty then
            { rd2.1 with progressEmits := rd2.1.progressEmits + 1,
                         finishedEmits := rd2.1.finishedEmits ++ [top3Sizes.headD 0] }
          else
            let top2Sizes := ((sortByEpsDesc r2avg).take 2).map Prod.fst
            let rd3 := roundLoop o avail top2Sizes (bumpProgress rd2.1) []
            let combined := buildCombined top2Sizes rd2.2 rd3.2
            let optimal :=
              if combined.isEmpty = false then pyMaxKey combined
              else if r2avg.isEmpty = false then pyMaxKey r2avg
              else top3Sizes.headD 0
            { rd3.1 with progressEmits := rd3.1.progressEmits + 1,
                         finishedEmits := rd3.1.finishedEmits ++ [optimal] }

/-- `AutoTunerWorker.run` (lines 65-72): `_run_impl` under a catch-all
that emits the error and `finished(SURVEY_STEPS[0])`. -/
def tunerRun (o : TunerOracle) (entries : List TEntry) : TunerState :=
  match o.inject with
  | some msg => { errorEmits := [msg], finishedEmits := [SURVEY_STEPS.headD 0] }
  | none => runImpl o entries

/-- The engine's aggregation state as reset at run start
(translation_engine.py lines 107-112 / 149-154): counters zeroed, total
and worker count as configured. -/
def engineAggInit (total workerCount : Nat) : EngineAgg :=
  ⟨total, 0, 0, 0, workerCount, 0, [], 0, 0, []⟩

/-- A quiescent oracle for concrete evaluation: local client, never
cancelled, empty batch results, no exception. -/
def quietOracle : TunerOracle :=
  ⟨false, fun _ => false, false, [], fun _ => false, fun _ => [], fun _ => 0, none⟩

/-- The quiescent oracle with an unexpected exception escaping
`_run_impl`. -/
def raisingOracle : TunerOracle :=
  { quietOracle with inject := some "boom" }

/-- Invariant carried through every phase of `_run_impl` against an
eligible list of length L: the consumed counter never exceeds the offset,
the offset stays within the eligible list, every recorded batch request
fits (request offset + requested size within L), and no terminal
emission has happened yet. -/
def TunerInv (L : Nat) (st : TunerState) : Prop :=
  st.consumed ≤ st.offset ∧ st.offset ≤ L ∧
  (∀ p ∈ st.taken, p.1 + p.2 ≤ L) ∧ st.finishedEmits = []

/-! ## Partitioner lemmas -/

theorem chunksGo_length {α : Type} (items : List α) (k r : Nat) :
    ∀ (idxs : List Nat) (start : Nat),
      (chunksGo items k r idxs start).length = idxs.length := by
  intro idxs
  induction idxs with
  | nil => intro start; rfl
  | cons i rest ih => intro start; simp [chunksGo, ih]

theorem chunksGo_flatten {α : Type} (items : List α) (k r : Nat) :
    ∀ (idxs : List Nat) (start : Nat),
      (chunksGo items k r idxs start).flatten
        = (items.drop start).take ((idxs.map (chunkSize k r)).sum) := by
  intro idxs
  induction idxs with
  | nil => intro start; simp [chunksGo]
  | cons i rest ih =>
    intro start
    simp only [chunksGo, List.flatten_cons, ih, List.map_cons, List.sum_cons]
    rw [List.take_add]
    congr 1
    rw [List.drop_drop]

theorem chunksGo_map_length {α : Type} (items : List α) (k r : Nat) :
    ∀ (idxs : List Nat) (start : Nat),
      start + (idxs.map (chunkSize k r)).sum ≤ items.length →
      (chunksGo items k r idxs start).map List.length = idxs.map (chunkSize k r) := by
  intro idxs
  induction idxs with
  | nil => intro start _; rfl
  | cons i rest ih =>
    intro start h
    simp only [List.map_cons, List.sum_cons] at h
    simp only [chunksGo, List.map_cons]
    congr 1
    · rw [List.length_take, List.length_drop]
      omega
    · exact ih (start + chunkSize k r i) (by omega)

theorem sum_chunkSize_range (k r : Nat) :
    ∀ n : Nat, ((List.range n).map (chunkSize k r)).sum = n * k + min r n := by
  intro n
  induction n with
  | zero => simp
  | succ m ih =>
    rw [List.range_succ]
    simp only [List.map_append, List.sum_append, ih, List.map_cons, List.map_nil,
      List.sum_cons, List.sum_nil, chunkSize]
    rw [Nat.succ_mul]
    split <;> omega

theorem sum_chunkSize_divmod (L n : Nat) (hn : 0 < n) :
    ((List.range n).map (chunkSize (L / n) (L % n))).sum = L := by
  rw [sum_chunkSize_range]
  have hlt : L % n < n := Nat.mod_lt _ hn
  have := Nat.div_add_mod L n
  have : n * (L / n) + L % n = L := this
  omega

theorem chunkSize_bounds (k r i : Nat) : k ≤ chunkSize k r i ∧ chunkSize k r i ≤ k + 1 := by
  unfold chunkSize
  split <;> omega

/-- C1: for every list items and every n >= 1, split(items, n) returns
[items] as a single chunk when n <= 1; otherwise, with
k, r = divmod(len(items), n), it returns n chunks in order whose lengths
are k+1 for the first r chunks and k for the remaining n-r chunks
(expressed by the map over range n of chunkSize), and concatenating the
chunks in order reproduces items exactly. -/
theorem splitChunks_divmod_spec {α : Type} (items : List α) (n : Nat) (hn : 1 ≤ n) :
    (n ≤ 1 → splitChunks items n = [items]) ∧
    (2 ≤ n →
      (splitChunks items n).length = n ∧
      (splitChunks items n).map List.length
        = (List.range n).map (chunkSize (items.length / n) (items.length % n)) ∧
      (splitChunks items n).flatten = items) := by
  refine ⟨fun h => by simp [splitChunks, h], fun h2 => ?_⟩
  have hn1 : ¬ n ≤ 1 := by omega
  have hsum : ((List.range n).map (chunkSize (items.length / n) (items.length % n))).sum
      = items.length := sum_chunkSize_divmod items.length n (by omega)
  refine ⟨?_, ?_, ?_⟩
  · simp [splitChunks, hn1, chunksGo_length]
  · simp only [splitChunks, if_neg hn1]
    exact chunksGo_map_length items _ _ (List.range n) 0 (by omega)
  · simp only [splitChunks, if_neg hn1]
    rw [chunksGo_flatten, hsum]
    simp

theorem splitChunks_divmod_spec_witness :
    (splitChunks ([0, 1, 2, 3, 4, 5, 6] : List Nat) 2).length = 2 ∧
    (splitChunks ([0, 1, 2, 3, 4, 5, 6] : List Nat) 2).map List.length = [4, 3] ∧
    (splitChunks ([0, 1, 2, 3, 4, 5, 6] : List Nat) 2).flatten = [0, 1, 2, 3, 4, 5, 6] := by
  have h := (splitChunks_divmod_spec ([0, 1, 2, 3, 4, 5, 6] : List Nat) 2 (by decide)).2
  obtain ⟨ha, hb, hc⟩ := h (by decide)
  refine ⟨ha, ?_, hc⟩
  rw [hb]
  decide

/-- C6 counterexample: the raw Partitioner does not return min(n, L)
chunks; for L = 3 items and n = 5 it returns 5 chunks (two of them
empty), not min(5, 3) = 3. -/
theorem splitChunks_count_counterexample :
    ¬ ((splitChunks ([0, 1, 2] : List Nat) 5).length = min 5 3) := by decide

/-- C6 amended: when the Partitioner is invoked as the engine invokes it
(n first capped to min(num_workers, L), translation_engine.py line 115)
and L >= 1, the chunk count is min(num_workers, L), the chunk lengths sum
to L, and max chunk length minus min chunk length is at most 1. -/
theorem engineSplit_balanced {α : Type} (items : List α) (w : Nat)
    (hw : 1 ≤ w) (hL : 1 ≤ items.length) :
    (engineSplit items w).length = min w items.length ∧
    ((engineSplit items w).map List.length).sum = items.length ∧
    ∀ a ∈ engineSplit items w, ∀ b ∈ engineSplit items w,
      a.length ≤ b.length + 1 := by
  have hm : 1 ≤ min w items.length := by omega
  by_cases hm1 : min w items.length ≤ 1
  · have hmeq : min w items.length = 1 := by omega
    have he : engineSplit items w = [items] := by
      unfold engineSplit splitChunks
      rw [if_pos hm1]
    rw [he, hmeq]
    refine ⟨rfl, by simp, ?_⟩
    intro a ha b hb
    simp only [List.mem_singleton] at ha hb
    subst ha; subst hb; omega
  · have hsum : ((List.range (min w items.length)).map
        (chunkSize (items.length / min w items.length)
          (items.length % min w items.length))).sum = items.length :=
      sum_chunkSize_divmod items.length (min w items.length) (by omega)
    have he : engineSplit items w
        = chunksGo items (items.length / min w items.length)
            (items.length % min w items.length) (List.range (min w items.length)) 0 := by
      unfold engineSplit splitChunks
      rw [if_neg hm1]
    have hmap : (engineSplit items w).map List.length
        = (List.range (min w items.length)).map
            (chunkSize (items.length / min w items.length)
              (items.length % min w items.length)) := by
      rw [he]
      exact chunksGo_map_length items _ _ _ 0 (by omega)
    refine ⟨?_, ?_, ?_⟩
    · rw [he, chunksGo_length]
      simp
    · rw [hmap, hsum]
    · intro a ha b hb
      have hma : a.length ∈ (engineSplit items w).map List.length :=
        List.mem_map_of_mem _ ha
      have hmb : b.length ∈ (engineSplit items w).map List.length :=
        List.mem_map_of_mem _ hb
      rw [hmap] at hma hmb
      obtain ⟨i, -, hi⟩ := List.mem_map.mp hma
      obtain ⟨j, -, hj⟩ := List.mem_map.mp hmb
      have h1 := chunkSize_bounds (items.length / min w items.length)
        (items.length % min w items.length) i
      have h2 := chunkSize_bounds (items.length / min w items.length)
        (items.length % min w items.length) j
      omega

theorem engineSplit_balanced_witness :
    (engineSplit ([0, 1, 2] : List Nat) 2).length = min 2 3 ∧
    ((engineSplit ([0, 1, 2] : List Nat) 2).map List.length).sum = 3 := by
  have h := engineSplit_balanced ([0, 1, 2] : List Nat) 2 (by decide) (by decide)
  exact ⟨h.1, h.2.1⟩

theorem workerRun_fin_aux (mode : String) (cancel : Nat → Bool)
    (outcome : Nat → Except String String) (entries : List TEntry) :
    (workerRun mode cancel outcome entries).finishedCount = 1 := by
  induction entries generalizing cancel outcome with
  | nil => rfl
  | cons e rest ih =>
    simp only [workerRun]
    by_cases hc : cancel 0
    · simp [hc]
    · simp only [hc, Bool.false_eq_true, if_false]
      cases hs : stepAction mode e with
      | skipItem p eo => simp [ih]
      | callClient =>
        cases ho : outcome 0 with
        | ok r => simp [ho, ih]
        | error m => simp [ho, ih]

/-- C3: every invocation of TranslationWorker.run emits its terminal
finished signal exactly once, for every mode, every cancellation-flag
history and every per-item client outcome (success or caught client-side
error) — natural completion, mid-chunk cancellation and per-item failures
all end in exactly one finished emission. -/
theorem workerRun_terminal_once (mode : String) (cancel : Nat → Bool)
    (outcome : Nat → Except String String) (entries : List TEntry) :
    (workerRun mode cancel outcome entries).finishedCount = 1 :=
  workerRun_fin_aux mode cancel outcome entries

/-- C7: in TranslationWorker.run, in any mode, when an item reaches the
client call (it passed the mode's skip checks) and the call fails with a
caught client-side error, the worker emits an error event carrying that
item's id and message and then continues with the rest of the chunk: the
whole trace equals this item's events prepended to the full trace of the
remaining items, and the terminal finished still fires once — a single
item's failure never aborts the chunk. -/
theorem workerRun_error_continues (mode : String) (e : TEntry) (rest : List TEntry)
    (cancel : Nat → Bool) (outcome : Nat → Except String String) (msg : String)
    (hc : cancel 0 = false)
    (hcall : stepAction mode e = .callClient)
    (hout : outcome 0 = .error msg) :
    (workerRun mode cancel outcome (e :: rest)).errors
      = (e.id, msg) :: (workerRun mode (shiftO cancel) (shiftO outcome) rest).errors ∧
    (workerRun mode cancel outcome (e :: rest)).entryDone
      = (workerRun mode (shiftO cancel) (shiftO outcome) rest).entryDone ∧
    (workerRun mode cancel outcome (e :: rest)).processed
      = callPreview mode e
          :: (workerRun mode (shiftO cancel) (shiftO outcome) rest).processed ∧
    (workerRun mode cancel outcome (e :: rest)).finishedCount = 1 := by
  simp [workerRun, hc, hcall, hout, workerRun_fin_aux]

theorem workerRun_error_continues_witness :
    ((workerRun "polish" (fun _ => false)
        (fun _ => Except.error "connection refused")
        [⟨"id1", "text", "", "", "some translation", "untranslated"⟩]).errors
      = [("id1", "connection refused")] ∧
     (workerRun "polish" (fun _ => false)
        (fun _ => Except.error "connection refused")
        [⟨"id1", "text", "", "", "some translation", "untranslated"⟩]).finishedCount = 1) ∧
    (workerRun "translate" (fun _ => false) (fun _ => Except.error "boom")
        [⟨"id2", "source text", "", "", "", "untranslated"⟩]).errors
      = [("id2", "boom")] := by
  have h1 := workerRun_error_continues "polish"
    ⟨"id1", "text", "", "", "some translation", "untranslated"⟩ []
    (fun _ => false) (fun _ => Except.error "connection refused") "connection refused"
    rfl (by decide) rfl
  have h2 := workerRun_error_continues "translate"
    ⟨"id2", "source text", "", "", "", "untranslated"⟩ []
    (fun _ => false) (fun _ => Except.error "boom") "boom"
    rfl (by decide) rfl
  refine ⟨⟨?_, h1.2.2.2⟩, ?_⟩
  · simpa [workerRun] using h1.1
  · simpa [workerRun] using h2.1

/-- C10: in polish mode the per-item skip decision of
TranslationWorker.run depends only on whether the entry's translation is
empty or whitespace: with a non-empty translation the client call happens
for every status (the status is universally quantified and the whole
emitted trace is status-independent), with an empty/whitespace
translation the item is skipped; the status-based completion check
applies only in translate mode, where a translated/reviewed/skipped
status forces a skip. -/
theorem polish_skip_translation_only (e : TEntry) (rest : List TEntry)
    (cancel : Nat → Bool) (outcome : Nat → Except String String) (result : String)
    (hc : cancel 0 = false) :
    ((e.translation == "" || pyStrip e.translation == "") = false →
      outcome 0 = .ok result →
      (workerRun "polish" cancel outcome (e :: rest)).entryDone
        = (e.id, result)
            :: (workerRun "polish" (shiftO cancel) (shiftO outcome) rest).entryDone) ∧
    ((e.translation == "" || pyStrip e.translation == "") = true →
      (workerRun "polish" cancel outcome (e :: rest)).processed
        = "(skipped)" :: (workerRun "polish" (shiftO cancel) (shiftO outcome) rest).processed ∧
      (workerRun "polish" cancel outcome (e :: rest)).entryDone
        = (workerRun "polish" (shiftO cancel) (shiftO outcome) rest).entryDone) ∧
    (∀ s : String,
      (workerRun "polish" cancel outcome ({ e with status := s } :: rest)).entryDone
        = (workerRun "polish" cancel outcome (e :: rest)).entryDone ∧
      (workerRun "polish" cancel outcome ({ e with status := s } :: rest)).processed
        = (workerRun "polish" cancel outcome (e :: rest)).processed ∧
      (workerRun "polish" cancel outcome ({ e with status := s } :: rest)).errors
        = (workerRun "polish" cancel outcome (e :: rest)).errors) ∧
    (∀ s : String,
      (s == "translated" || s == "reviewed" || s == "skipped") = true →
      (workerRun "translate" cancel outcome ({ e with status := s } :: rest)).processed
        = "(skipped)"
            :: (workerRun "translate" (shiftO cancel) (shiftO outcome) rest).processed ∧
      (workerRun "translate" cancel outcome ({ e with status := s } :: rest)).entryDone
        = (workerRun "translate" (shiftO cancel) (shiftO outcome) rest).entryDone) := by
  have hpm : ("polish" == "translate") = false := by decide
  refine ⟨?_, ?_, ?_, ?_⟩
  · intro hskip hout
    have hsa : stepAction "polish" e = .callClient := by
      simp [stepAction, hpm, hskip]
    simp [workerRun, hc, hsa, hout]
  · intro hskip
    have hsa : stepAction "polish" e = .skipItem "(skipped)" e := by
      simp [stepAction, hpm, hskip]
    simp [workerRun, hc, hsa]
  · intro s
    by_cases hskip : (e.translation == "" || pyStrip e.translation == "") = true
    · have hsa : stepAction "polish" e = .skipItem "(skipped)" e := by
        simp [stepAction, hpm, hskip]
      have hsa2 : stepAction "polish" { e with status := s }
          = .skipItem "(skipped)" { e with status := s } := by
        simp [stepAction, hpm, hskip]
      simp [workerRun, hc, hsa, hsa2]
    · have hskip' : (e.translation == "" || pyStrip e.translation == "") = false := by
        simpa using hskip
      have hsa : stepAction "polish" e = .callClient := by
        simp [stepAction, hpm, hskip']
      have hsa2 : stepAction "polish" { e with status := s } = .callClient := by
        simp [stepAction, hpm, hskip']
      cases ho : outcome 0 with
      | ok r => simp [workerRun, hc, hsa, hsa2, ho, callPreview]
      | error m => simp [workerRun, hc, hsa, hsa2, ho, callPreview]
  · intro s hs
    have hsa : stepAction "translate" { e with status := s }
        = .skipItem "(skipped)" { e with status := s } := by
      simp [stepAction, hs]
    simp [workerRun, hc, hsa]

theorem polish_skip_translation_only_witness :
    (workerRun "polish" (fun _ => false) (fun _ => Except.ok "Polished")
        [⟨"e1", "orig", "", "", "Hello", "untranslated"⟩]).entryDone
      = [("e1", "Polished")] := by
  have h := polish_skip_translation_only ⟨"e1", "orig", "", "", "Hello", "untranslated"⟩ []
    (fun _ => false) (fun _ => Except.ok "Polished") "Polished" rfl
  have h1 := h.1 (by decide) rfl
  simpa [workerRun] using h1

/-- C5 counterexample: calling translate_batch while a run is already
active returns without emitting any signal (translation_engine.py lines
98-99): zero finished emissions, contradicting the claim that a terminal
finished event is emitted in that case. -/
theorem engine_reentrant_counterexample :
    (translateBatchStart true 2 [⟨"e1", "t", "", "", "", "untranslated"⟩]).finishedEmits = 0 ∧
    ¬ (1 ≤ (translateBatchStart true 2
        [⟨"e1", "t", "", "", "", "untranslated"⟩]).finishedEmits) := by
  constructor
  · rfl
  · decide

/-- C5 amended: a run call while already running returns immediately as a
pure no-op — no workers started, no total set, and no signal at all is
emitted; a run call with no eligible entries (engine idle) starts no
workers and emits the terminal finished signal exactly once.  (The claim
held except that the already-running branch emits nothing.) -/
theorem engine_noop_amended (isRunning : Bool) (numWorkers : Nat) (entries : List TEntry) :
    (isRunning = true →
      translateBatchStart isRunning numWorkers entries = ⟨0, [], 0⟩ ∧
      polishBatchStart isRunning numWorkers entries = ⟨0, [], 0⟩) ∧
    (isRunning = false → (entries.filter translateEligible).isEmpty = true →
      translateBatchStart isRunning numWorkers entries = ⟨1, [], 0⟩) ∧
    (isRunning = false → (entries.filter polishEligible).isEmpty = true →
      polishBatchStart isRunning numWorkers entries = ⟨1, [], 0⟩) := by
  refine ⟨fun h => ?_, fun h hemp => ?_, fun h hemp => ?_⟩
  · subst h
    exact ⟨rfl, rfl⟩
  · subst h
    simp [translateBatchStart, hemp]
  · subst h
    simp [polishBatchStart, hemp]

theorem engine_noop_amended_witness :
    translateBatchStart false 2
        [⟨"e1", "t", "", "", "done", "translated"⟩] = ⟨1, [], 0⟩ ∧
    polishBatchStart false 2
        [⟨"e2", "t", "", "", "", "untranslated"⟩] = ⟨1, [], 0⟩ := by
  constructor
  · exact (engine_noop_amended false 2
      [⟨"e1", "t", "", "", "done", "translated"⟩]).2.1 rfl (by decide)
  · exact (engine_noop_amended false 2
      [⟨"e2", "t", "", "", "", "untranslated"⟩]).2.2 rfl (by decide)

theorem engineDispatch_foldl_inv (evs : List EngineEvent) :
    ∀ st : EngineAgg,
      st.checkpointEmits = st.translateCount / CHECKPOINT_INTERVAL →
      (evs.foldl engineDispatch st).checkpointEmits
          = (evs.foldl engineDispatch st).translateCount / CHECKPOINT_INTERVAL ∧
      (evs.foldl engineDispatch st).translateCount
          = st.translateCount + countEntryDone evs := by
  induction evs with
  | nil => intro st h; simpa [countEntryDone] using h
  | cons ev rest ih =>
    intro st h
    have hstep :
        (engineDispatch st ev).checkpointEmits
            = (engineDispatch st ev).translateCount / CHECKPOINT_INTERVAL ∧
        (engineDispatch st ev).translateCount
            = st.translateCount + (if (match ev with
                | .entryDone _ _ => true
                | _ => false) then 1 else 0) := by
      cases ev with
      | itemProcessed s => simpa [engineDispatch] using h
      | errorEvt i m => simpa [engineDispatch] using h
      | workerFinished =>
          simp only [engineDispatch]
          split <;> simpa using h
      | entryDone i t =>
          simp only [engineDispatch]
          split
          · rename_i hmod
            have hdvd : CHECKPOINT_INTERVAL ∣ st.translateCount + 1 :=
              (Nat.dvd_iff_mod_eq_zero).mpr hmod
            refine ⟨?_, by simp⟩
            show st.checkpointEmits + 1 = (st.translateCount + 1) / CHECKPOINT_INTERVAL
            rw [Nat.succ_div, if_pos hdvd]
            omega
          · rename_i hmod
            have hdvd : ¬ CHECKPOINT_INTERVAL ∣ st.translateCount + 1 := by
              rw [Nat.dvd_iff_mod_eq_zero]
              exact hmod
            refine ⟨?_, by simp⟩
            show st.checkpointEmits = (st.translateCount + 1) / CHECKPOINT_INTERVAL
            rw [Nat.succ_div, if_neg hdvd]
            omega
    have hrec := ih (engineDispatch st ev) hstep.1
    rw [List.foldl_cons]
    refine ⟨hrec.1, ?_⟩
    rw [hrec.2, hstep.2]
    cases ev <;> simp [countEntryDone, List.filter_cons] <;> omega

/-- C4: starting from a freshly reset engine state, the checkpoint signal
fires exactly once each time the successfully-completed counter (bumped
only by entry-done events, not by item-processed progress or error
events) crosses a multiple of CHECKPOINT_INTERVAL = 25: after any event
sequence the number of checkpoint emissions is the entry-done count
divided by 25, so a run with exactly 77 successful completions fires the
checkpoint callback exactly 3 times. -/
theorem checkpoint_cadence (evs : List EngineEvent) (st : EngineAgg)
    (h0 : st.translateCount = 0) (h1 : st.checkpointEmits = 0) :
    (evs.foldl engineDispatch st).checkpointEmits
        = countEntryDone evs / CHECKPOINT_INTERVAL ∧
    (countEntryDone evs = 77 → (evs.foldl engineDispatch st).checkpointEmits = 3) ∧
    (∀ s : String,
      (engineDispatch st (.itemProcessed s)).checkpointEmits = st.checkpointEmits ∧
      (engineDispatch st (.itemProcessed s)).translateCount = st.translateCount) ∧
    (∀ i m : String,
      (engineDispatch st (.errorEvt i m)).checkpointEmits = st.checkpointEmits ∧
      (engineDispatch st (.errorEvt i m)).translateCount = st.translateCount) := by
  have hinv := engineDispatch_foldl_inv evs st (by rw [h0, h1]; rfl)
  have hmain : (evs.foldl engineDispatch st).checkpointEmits
      = countEntryDone evs / CHECKPOINT_INTERVAL := by
    rw [hinv.1, hinv.2, h0, Nat.zero_add]
  refine ⟨hmain, fun h77 => ?_, fun s => by simp [engineDispatch], fun i m => by simp [engineDispatch]⟩
  rw [hmain, h77]
  rfl

theorem checkpoint_cadence_witness :
    ((List.replicate 77 (EngineEvent.entryDone "k" "v")).foldl engineDispatch
        (engineAggInit 77 2)).checkpointEmits = 3 := by
  have h := checkpoint_cadence (List.replicate 77 (EngineEvent.entryDone "k" "v"))
    (engineAggInit 77 2) rfl rfl
  exact h.2.1 (by decide)

/-! ## Auto-tuner lemmas -/

theorem keyToEntry_isSome_bounds (entries : List TEntry) (k : Nat)
    (h : (keyToEntry entries k).isSome = true) :
    1 ≤ k ∧ k - 1 < entries.length := by
  unfold keyToEntry at h
  by_cases hk : k = 0
  · rw [if_pos hk] at h
    simp at h
  · rw [if_neg hk] at h
    refine ⟨by omega, ?_⟩
    cases hx : entries[k - 1]? with
    | none => rw [hx] at h; simp at h
    | some a => exact (List.getElem?_eq_some.mp hx).1

theorem countSuccess_le (entries : List TEntry) (results : List (Nat × String))
    (h : (results.map Prod.fst).Nodup) :
    countSuccess entries results ≤ entries.length := by
  unfold countSuccess
  set p := fun kv : Nat × String => (keyToEntry entries kv.1).isSome && kv.2 != ""
  have hsub : (results.filter p).Sublist results := List.filter_sublist results
  have hkeys : ((results.filter p).map Prod.fst).Sublist (results.map Prod.fst) :=
    hsub.map Prod.fst
  have hnd : ((results.filter p).map Prod.fst).Nodup := List.Nodup.sublist hkeys h
  have hsubset : ((results.filter p).map Prod.fst) ⊆ List.range' 1 entries.length := by
    intro k hk
    obtain ⟨kv, hkv, hfst⟩ := List.mem_map.mp hk
    have hp := List.of_mem_filter hkv
    have hps : (keyToEntry entries kv.1).isSome = true := by
      simp only [p, Bool.and_eq_true] at hp
      exact hp.1
    obtain ⟨h1, h2⟩ := keyToEntry_isSome_bounds entries kv.1 hps
    rw [List.mem_range'_1]
    omega
  have hsp := List.subperm_of_subset hnd hsubset
  have hlen := hsp.length_le
  rw [List.length_map, List.length_range'] at hlen
  exact hlen

theorem surveyBatch_inv (o : TunerOracle) (avail : List TEntry) (size : Nat)
    (st : TunerState)
    (hres : ∀ b, ((o.results b).map Prod.fst).Nodup)
    (h : TunerInv avail.length st) (hfit : st.offset + size ≤ avail.length) :
    TunerInv avail.length (surveyBatch o avail size st).2 := by
  obtain ⟨h1, h2, h3, h4⟩ := h
  have hsucc : countSuccess ((avail.drop st.offset).take size)
      (o.results st.batchIdx) ≤ size := by
    have ha := countSuccess_le ((avail.drop st.offset).take size)
      (o.results st.batchIdx) (hres st.batchIdx)
    have hb : ((avail.drop st.offset).take size).length ≤ size := by
      rw [List.length_take]
      omega
    omega
  simp only [surveyBatch, takeBatch, timedTranslate, translateAndEmit, TunerInv]
  split
  · dsimp only
    refine ⟨by omega, by omega, ?_, h4⟩
    intro p hp
    rcases List.mem_append.mp hp with hold | hnew
    · exact h3 p hold
    · simp only [List.mem_singleton] at hnew
      subst hnew
      omega
  · dsimp only
    refine ⟨by omega, by omega, ?_, h4⟩
    intro p hp
    rcases List.mem_append.mp hp with hold | hnew
    · exact h3 p hold
    · simp only [List.mem_singleton] at hnew
      subst hnew
      omega

theorem warmupPhase_inv (o : TunerOracle) (avail : List TEntry) (st : TunerState)
    (hw : (o.warmupResults.map Prod.fst).Nodup)
    (h : TunerInv avail.length st) :
    TunerInv avail.length (warmupPhase o avail st).2 := by
  obtain ⟨h1, h2, h3, h4⟩ := h
  have hsucc : countSuccess ((avail.drop st.offset).take WARMUP_SIZE)
      o.warmupResults ≤ WARMUP_SIZE := by
    have ha := countSuccess_le ((avail.drop st.offset).take WARMUP_SIZE)
      o.warmupResults hw
    have hb : ((avail.drop st.offset).take WARMUP_SIZE).length ≤ WARMUP_SIZE := by
      rw [List.length_take]
      omega
    omega
  simp only [warmupPhase, readCancel, takeBatch, translateAndEmit, TunerInv]
  split
  · rename_i hguard
    split
    · dsimp only
      refine ⟨by omega, by omega, ?_, h4⟩
      intro p hp
      rcases List.mem_append.mp hp with hold | hnew
      · exact h3 p hold
      · simp only [List.mem_singleton] at hnew
        subst hnew
        omega
    · dsimp only
      refine ⟨by omega, by omega, ?_, h4⟩
      intro p hp
      rcases List.mem_append.mp hp with hold | hnew
      · exact h3 p hold
      · simp only [List.mem_singleton] at hnew
        subst hnew
        omega
  · exact ⟨h1, h2, h3, h4⟩

theorem r1Survey_inv (o : TunerOracle) (avail : List TEntry)
    (hres : ∀ b, ((o.results b).map Prod.fst).Nodup) :
    ∀ (sizes : List Nat) (st : TunerState) (acc : List (Nat × ℚ)),
      TunerInv avail.length st →
      TunerInv avail.length (r1Survey o avail sizes st acc).1 := by
  intro sizes
  induction sizes with
  | nil => intro st acc h; exact h
  | cons size rest ih =>
    intro st acc h
    simp only [r1Survey, readCancel]
    split
    · exact h
    · split
      · exact h
      · rename_i hguard
        refine ih _ _ (surveyBatch_inv o avail size _ hres ?_ ?_)
        · exact h
        · dsimp only at hguard ⊢
          omega

theorem repLoop_inv (o : TunerOracle) (avail : List TEntry) (size : Nat)
    (hres : ∀ b, ((o.results b).map Prod.fst).Nodup) :
    ∀ (fuel : Nat) (st : TunerState) (acc : List ℚ),
      TunerInv avail.length st →
      TunerInv avail.length (repLoop o avail size fuel st acc).1 := by
  intro fuel
  induction fuel with
  | zero => intro st acc h; exact h
  | succ m ih =>
    intro st acc h
    simp only [repLoop, readCancel]
    split
    · exact h
    · split
      · exact h
      · rename_i hguard
        refine ih _ _ (surveyBatch_inv o avail size _ hres ?_ ?_)
        · exact h
        · dsimp only at hguard ⊢
          omega

theorem roundLoop_inv (o : TunerOracle) (avail : List TEntry)
    (hres : ∀ b, ((o.results b).map Prod.fst).Nodup) :
    ∀ (sizes : List Nat) (st : TunerState) (raw : List (Nat × List ℚ)),
      TunerInv avail.length st →
      TunerInv avail.length (roundLoop o avail sizes st raw).1 := by
  intro sizes
  induction sizes with
  | nil => intro st raw h; exact h
  | cons size rest ih =>
    intro st raw h
    simp only [roundLoop, readCancel]
    split
    · exact h
    · exact ih _ _ (repLoop_inv o avail size hres REPS _ [] h)

theorem bumpProgress_inv (L : Nat) (st : TunerState) (h : TunerInv L st) :
    TunerInv L (bumpProgress st) := h

theorem tunerExit1_spec (L : Nat) (st : TunerState) (x : Nat) (h : TunerInv L st) :
    ({ st with finishedEmits := st.finishedEmits ++ [x] } : TunerState).consumed ≤ L ∧
    (∀ p ∈ ({ st with finishedEmits := st.finishedEmits ++ [x] } : TunerState).taken,
        p.1 + p.2 ≤ L) ∧
    ({ st with finishedEmits := st.finishedEmits ++ [x] } :
        TunerState).finishedEmits.length = 1 := by
  obtain ⟨h1, h2, h3, h4⟩ := h
  refine ⟨by dsimp only; omega, ?_, ?_⟩
  · intro p hp
    dsimp only at hp
    exact h3 p hp
  · dsimp only
    rw [h4]
    rfl

theorem tunerExit2_spec (L : Nat) (st : TunerState) (x : Nat) (h : TunerInv L st) :
    ({ st with progressEmits := st.progressEmits + 1,
               finishedEmits := st.finishedEmits ++ [x] } : TunerState).consumed ≤ L ∧
    (∀ p ∈ ({ st with progressEmits := st.progressEmits + 1,
                      finishedEmits := st.finishedEmits ++ [x] } : TunerState).taken,
        p.1 + p.2 ≤ L) ∧
    ({ st with progressEmits := st.progressEmits + 1,
               finishedEmits := st.finishedEmits ++ [x] } :
        TunerState).finishedEmits.length = 1 := by
  obtain ⟨h1, h2, h3, h4⟩ := h
  refine ⟨by dsimp only; omega, ?_, ?_⟩
  · intro p hp
    dsimp only at hp
    exact h3 p hp
  · dsimp only
    rw [h4]
    rfl

theorem runImpl_spec (o : TunerOracle) (entries : List TEntry)
    (hres : ∀ b, ((o.results b).map Prod.fst).Nodup)
    (hw : (o.warmupResults.map Prod.fst).Nodup) :
    (runImpl o entries).consumed ≤ (tunerEligible entries).length ∧
    (∀ p ∈ (runImpl o entries).taken,
        p.1 + p.2 ≤ (tunerEligible entries).length) ∧
    (runImpl o entries).finishedEmits.length = 1 := by
  have hInv0 : TunerInv (tunerEligible entries).length ({} : TunerState) :=
    ⟨Nat.le_refl 0, Nat.zero_le _, fun p hp => absurd hp (List.not_mem_nil p), rfl⟩
  simp only [runImpl]
  split
  · exact ⟨Nat.zero_le _, fun p hp => absurd hp (List.not_mem_nil p), rfl⟩
  · split
    · exact ⟨Nat.zero_le _, fun p hp => absurd hp (List.not_mem_nil p), rfl⟩
    · split
      · exact tunerExit1_spec _ _ _ (warmupPhase_inv o _ {} hw hInv0)
      · split
        · exact tunerExit1_spec _ _ _
            (r1Survey_inv o _ hres _ _ _ (warmupPhase_inv o _ {} hw hInv0))
        · split
          · exact tunerExit2_spec _ _ _
              (roundLoop_inv o _ hres _ _ _
                (bumpProgress_inv _ _
                  (r1Survey_inv o _ hres _ _ _ (warmupPhase_inv o _ {} hw hInv0))))
          · exact tunerExit2_spec _ _ _
              (roundLoop_inv o _ hres _ _ _
                (bumpProgress_inv _ _
                  (roundLoop_inv o _ hres _ _ _
                    (bumpProgress_inv _ _
                      (r1Survey_inv o _ hres _ _ _
                        (warmupPhase_inv o _ {} hw hInv0))))))

/-- C2: throughout every calibration run, each batch (warmup, Round-1
survey, Round-2 semifinal, Round-3 final) is sliced from the eligible
entry list only under the guard offset + batch_size <= len(available)
(every recorded take satisfies it), and the total number of entries
consumed never exceeds the eligible-entry count.  The Nodup hypotheses
state that the client's result dicts cannot hold duplicate keys. -/
theorem tuner_entry_budget (o : TunerOracle) (entries : List TEntry)
    (hres : ∀ b, ((o.results b).map Prod.fst).Nodup)
    (hw : (o.warmupResults.map Prod.fst).Nodup) :
    (∀ p ∈ (tunerRun o entries).taken,
        p.1 + p.2 ≤ (tunerEligible entries).length) ∧
    (tunerRun o entries).consumed ≤ (tunerEligible entries).length := by
  rcases hInj : o.inject with _ | msg
  · have h := runImpl_spec o entries hres hw
    simp only [tunerRun, hInj]
    exact ⟨h.2.1, h.1⟩
  · simp only [tunerRun, hInj]
    exact ⟨fun p hp => absurd hp (List.not_mem_nil p), Nat.zero_le _⟩

theorem tuner_entry_budget_witness :
    (tunerRun quietOracle []).consumed ≤ (tunerEligible []).length :=
  (tuner_entry_budget quietOracle [] (fun b => by simp [quietOracle])
    (by simp [quietOracle])).2

/-- C8: AutoTunerWorker.run always emits the finished signal exactly
once; when an unexpected exception escapes `_run_impl`, the outermost
catch-all emits one error event carrying the message and finishes with
SURVEY_STEPS[0] = 5, the smallest candidate size, so the caller always
receives a usable result. -/
theorem tuner_catchall (o : TunerOracle) (entries : List TEntry)
    (hres : ∀ b, ((o.results b).map Prod.fst).Nodup)
    (hw : (o.warmupResults.map Prod.fst).Nodup) :
    (tunerRun o entries).finishedEmits.length = 1 ∧
    (∀ msg, o.inject = some msg →
      (tunerRun o entries).errorEmits = [msg] ∧
      (tunerRun o entries).finishedEmits = [SURVEY_STEPS.headD 0] ∧
      ∀ s ∈ SURVEY_STEPS, SURVEY_STEPS.headD 0 ≤ s) := by
  rcases hInj : o.inject with _ | m
  · simp only [tunerRun, hInj]
    refine ⟨(runImpl_spec o entries hres hw).2.2, ?_⟩
    intro msg hmsg
    cases hmsg
  · simp only [tunerRun, hInj]
    refine ⟨rfl, ?_⟩
    intro msg hmsg
    have hm : m = msg := by injection hmsg
    subst hm
    exact ⟨rfl, trivial, by decide⟩

theorem tuner_catchall_witness :
    (tunerRun raisingOracle []).errorEmits = ["boom"] ∧
    (tunerRun raisingOracle []).finishedEmits = [SURVEY_STEPS.headD 0] := by
  have h := tuner_catchall raisingOracle []
    (fun b => by simp [raisingOracle, quietOracle]) (by simp [raisingOracle, quietOracle])
  have h2 := h.2 "boom" rfl
  exact ⟨h2.1, h2.2.1⟩

theorem wle_trans {x y z : Nat × ℚ}
    (h1 : x.2 < y.2 ∨ (x.2 = y.2 ∧ x.1 ≤ y.1))
    (h2 : y.2 < z.2 ∨ (y.2 = z.2 ∧ y.1 ≤ z.1)) :
    x.2 < z.2 ∨ (x.2 = z.2 ∧ x.1 ≤ z.1) := by
  rcases h1 with h1 | ⟨e1, l1⟩
  · rcases h2 with h2 | ⟨e2, l2⟩
    · exact Or.inl (h1.trans h2)
    · exact Or.inl (e2 ▸ h1)
  · rcases h2 with h2 | ⟨e2, l2⟩
    · exact Or.inl (e1 ▸ h2)
    · exact Or.inr ⟨e1.trans e2, l1.trans l2⟩

theorem pyMaxFold_spec (ps : List (Nat × ℚ)) :
    ∀ b : Nat × ℚ,
      ((ps.foldl pyMaxStep b) = b ∨ (ps.foldl pyMaxStep b) ∈ ps) ∧
      (b.2 < (ps.foldl pyMaxStep b).2
        ∨ (b.2 = (ps.foldl pyMaxStep b).2 ∧ b.1 ≤ (ps.foldl pyMaxStep b).1)) ∧
      (∀ q ∈ ps, q.2 < (ps.foldl pyMaxStep b).2
        ∨ (q.2 = (ps.foldl pyMaxStep b).2 ∧ q.1 ≤ (ps.foldl pyMaxStep b).1)) := by
  induction ps with
  | nil =>
    intro b
    refine ⟨Or.inl rfl, Or.inr ⟨rfl, le_refl _⟩, ?_⟩
    intro q hq
    exact absurd hq (List.not_mem_nil q)
  | cons q0 rest ih =>
    intro b
    rw [List.foldl_cons]
    obtain ⟨hmem, hb, hall⟩ := ih (pyMaxStep b q0)
    have hstepb : b.2 < (pyMaxStep b q0).2
        ∨ (b.2 = (pyMaxStep b q0).2 ∧ b.1 ≤ (pyMaxStep b q0).1) := by
      unfold pyMaxStep
      split
      · rename_i hlt
        rcases hlt with h | ⟨he, hl⟩
        · exact Or.inl h
        · exact Or.inr ⟨he, le_of_lt hl⟩
      · exact Or.inr ⟨rfl, le_refl _⟩
    have hstepq : q0.2 < (pyMaxStep b q0).2
        ∨ (q0.2 = (pyMaxStep b q0).2 ∧ q0.1 ≤ (pyMaxStep b q0).1) := by
      unfold pyMaxStep
      split
      · exact Or.inr ⟨rfl, le_refl _⟩
      · rename_i hnlt
        have hA : ¬ (b.2 < q0.2) := fun h => hnlt (Or.inl h)
        have hB : ¬ (b.2 = q0.2 ∧ b.1 < q0.1) := fun h => hnlt (Or.inr h)
        rcases lt_or_eq_of_le (le_of_not_lt hA) with h | h
        · exact Or.inl h
        · refine Or.inr ⟨h, ?_⟩
          by_contra hq
          exact hB ⟨h.symm, lt_of_not_le hq⟩
    refine ⟨?_, wle_trans hstepb hb, ?_⟩
    · rcases hmem with he | hin
      · by_cases hc : (b.2 < q0.2 ∨ (b.2 = q0.2 ∧ b.1 < q0.1))
        · have hps : pyMaxStep b q0 = q0 := by
            unfold pyMaxStep
            rw [if_pos hc]
          rw [he, hps]
          exact Or.inr (List.mem_cons_self q0 rest)
        · have hps : pyMaxStep b q0 = b := by
            unfold pyMaxStep
            rw [if_neg hc]
          rw [he, hps]
          exact Or.inl rfl
      · exact Or.inr (List.mem_cons_of_mem q0 hin)
    · intro q hq
      rcases List.mem_cons.mp hq with rfl | hq2
      · exact wle_trans hstepq hb
      · exact hall q hq2

theorem pyMaxKey_spec (l : List (Nat × ℚ)) (hne : l ≠ []) :
    ∃ a : ℚ, (pyMaxKey l, a) ∈ l ∧
      ∀ p ∈ l, p.2 < a ∨ (p.2 = a ∧ p.1 ≤ pyMaxKey l) := by
  cases l with
  | nil => exact absurd rfl hne
  | cons p ps =>
    obtain ⟨hmem, hb, hall⟩ := pyMaxFold_spec ps p
    have hk : pyMaxKey (p :: ps) = (ps.foldl pyMaxStep p).1 := rfl
    refine ⟨(ps.foldl pyMaxStep p).2, ?_, ?_⟩
    · rw [hk, Prod.mk.eta]
      rcases hmem with he | hin
      · rw [he]
        exact List.mem_cons_self p ps
      · exact List.mem_cons_of_mem p hin
    · intro q hq
      rw [hk]
      rcases List.mem_cons.mp hq with rfl | hq2
      · exact hb
      · exact hall q hq2

/-- C9: in the winner selection over the finalist sizes, the selected
size carries the highest combined average throughput over all pooled
Round-2 and Round-3 samples, and when two finalist sizes have equal
combined average the larger batch size is selected: every entry of the
combined table is either strictly below the winner's average or ties it
with a size no larger than the winner; the winner is one of the
finalists and its value is the average of its pooled samples. -/
theorem winner_selection_spec (finalists : List Nat)
    (r2raw r3raw : List (Nat × List ℚ))
    (hne : buildCombined finalists r2raw r3raw ≠ []) :
    pyMaxKey (buildCombined finalists r2raw r3raw) ∈ finalists ∧
    ∃ a : ℚ,
      (pyMaxKey (buildCombined finalists r2raw r3raw), a)
          ∈ buildCombined finalists r2raw r3raw ∧
      a = avgOf (lookupD r2raw (pyMaxKey (buildCombined finalists r2raw r3raw))
            ++ lookupD r3raw (pyMaxKey (buildCombined finalists r2raw r3raw))) ∧
      ∀ p ∈ buildCombined finalists r2raw r3raw,
        p.2 < a ∨ (p.2 = a ∧ p.1 ≤ pyMaxKey (buildCombined finalists r2raw r3raw)) := by
  obtain ⟨a, hmem, hall⟩ := pyMaxKey_spec _ hne
  have hsrc := hmem
  unfold buildCombined at hsrc
  obtain ⟨size, hsz, heq⟩ := List.mem_filterMap.mp hsrc
  dsimp only at heq
  by_cases hc : (lookupD r2raw size ++ lookupD r3raw size).isEmpty
  · rw [if_pos hc] at heq
    cases heq
  · rw [if_neg hc] at heq
    have hpair := Option.some.inj heq
    have hfst : size = pyMaxKey (buildCombined finalists r2raw r3raw) :=
      congrArg Prod.fst hpair
    have hsnd : avgOf (lookupD r2raw size ++ lookupD r3raw size) = a :=
      congrArg Prod.snd hpair
    refine ⟨hfst ▸ hsz, a, hmem, ?_, hall⟩
    rw [← hsnd, hfst]

theorem winner_selection_spec_witness :
    pyMaxKey (buildCombined [10, 20] [(10, [1]), (20, [1])] []) ∈ [10, 20] :=
  (winner_selection_spec [10, 20] [(10, [1]), (20, [1])] [] (by decide)).1
